import Mathlib

/-!
Verification of the active-cache repository: a fixed-bucket hash table
(pkg/hashmap/hashmap.go), cache entries with TTL (cache/cache_entry.go),
the cache facade with lazy expiration (ActiveCache), the sampling cleaner
(defaultClean) and configuration clamping (validateAndAdjustConfig).

Modelling conventions:
- Byte sequences are lists of naturals. A Go nil slice used as a key or a
  value is the corresponding Option being none.
- The maphash hash function is a parameter (hash : List Nat -> Nat): the Go
  code only uses Sum64 of the key bytes and the same hash within one map, so
  any deterministic function models it; the table only uses equality of hash
  values and reduction mod the bucket count.
- time.Now().UnixNano() is an Int parameter (now) threaded through the
  operations that read the clock.
- rand.Perm is an oracle parameter (depth and table size to the produced
  permutation), so theorems quantify over every possible random choice.
- The recursive cleaner is embedded with explicit fuel; running out of fuel
  returns none, so termination claims become isSome statements.
-/

/-! ## The hash table (pkg/hashmap/hashmap.go) -/

def DefaultTableSize : Nat := 10

/-- One record of a bucket, mirroring the Go struct entry[V] with fields
HashKey, Key, Value. -/
structure hmEntry (V : Type) where
  HashKey : Nat
  Key : List Nat
  Value : V
  deriving Repr, DecidableEq

/-- The hash table: an array of DefaultTableSize buckets, each an ordered
list of records. -/
structure HashMap (V : Type) where
  data : List (List (hmEntry V))
  hlen : data.length = DefaultTableSize

/-- The zero value of HashMap[V] in Go: ten empty buckets. -/
def HashMap.empty (V : Type) : HashMap V :=
  ⟨List.replicate DefaultTableSize [], by simp⟩

/-- Linear scan of one bucket comparing only the stored hash, as the loop in
HashMap.Get does. -/
def getBucket {V : Type} (h : Nat) : List (hmEntry V) → Option V
  | [] => none
  | e :: es => if e.HashKey = h then some e.Value else getBucket h es

/-- In-bucket part of HashMap.Put: overwrite the Value of the first record
with a matching hash (keeping its Key and HashKey), else append a new record
at the end. -/
def putBucket {V : Type} (h : Nat) (key : List Nat) (v : V) : List (hmEntry V) → List (hmEntry V)
  | [] => [⟨h, key, v⟩]
  | e :: es =>
    if e.HashKey = h then { e with Value := v } :: es
    else e :: putBucket h key v es

/-- In-bucket part of HashMap.Delete: remove the first record with a matching
hash, keeping the order of the rest; no-op if none matches. -/
def delBucket {V : Type} (h : Nat) : List (hmEntry V) → List (hmEntry V)
  | [] => []
  | e :: es => if e.HashKey = h then es else e :: delBucket h es

/-- HashMap.Get: hash the key, scan the bucket hash mod DefaultTableSize.
The Go (value, ok) pair is an Option. -/
def HashMap.Get {V : Type} (hash : List Nat → Nat) (m : HashMap V) (key : List Nat) : Option V :=
  getBucket (hash key) (m.data.getD (hash key % DefaultTableSize) [])

/-- HashMap.Put: store the value under the key, overwriting the first record
of the bucket whose stored hash equals hash key. -/
def HashMap.Put {V : Type} (hash : List Nat → Nat) (m : HashMap V) (key : List Nat) (v : V) :
    HashMap V :=
  ⟨m.data.set (hash key % DefaultTableSize)
      (putBucket (hash key) key v (m.data.getD (hash key % DefaultTableSize) [])),
    by rw [List.length_set]; exact m.hlen⟩

/-- HashMap.Delete: remove the record with key hash from its bucket if it
exists. -/
def HashMap.Delete {V : Type} (hash : List Nat → Nat) (m : HashMap V) (key : List Nat) :
    HashMap V :=
  ⟨m.data.set (hash key % DefaultTableSize)
      (delBucket (hash key) (m.data.getD (hash key % DefaultTableSize) [])),
    by rw [List.length_set]; exact m.hlen⟩

/-- HashMap.GetAll: all stored records, bucket by bucket in order. The Go
code returns nil for an empty table, which behaves as the empty list. -/
def HashMap.GetAll {V : Type} (m : HashMap V) : List (hmEntry V) :=
  m.data.flatten

/-- Number of records stored in the table. -/
def HashMap.size {V : Type} (m : HashMap V) : Nat :=
  m.GetAll.length

/-! ## Cache entries (cache/cache_entry.go) -/

def NoExpiration : Int := 0

/-- The cacheEntry struct: Value, Ttl (time.Duration, int64 nanoseconds) and
ExpiresAt (UnixNano instant, int64). -/
structure cacheEntry where
  Value : Option (List Nat)
  Ttl : Int
  ExpiresAt : Int
  deriving Repr, DecidableEq

/-- The emptyValueTTL helper: nil value and duration 0. -/
def emptyValueTTL : Option (List Nat) × Int := (none, 0)

/-- cacheEntry.IsExpired at clock reading now: true iff ExpiresAt is not the
NoExpiration sentinel and now has reached ExpiresAt. -/
def cacheEntry.IsExpired (c : cacheEntry) (now : Int) : Bool :=
  decide (NoExpiration ≠ c.ExpiresAt) && decide (c.ExpiresAt ≤ now)

/-- cacheEntry.GetValueTTL at clock reading now: empty if expired, else the
stored value and TTL. -/
def cacheEntry.GetValueTTL (c : cacheEntry) (now : Int) : Option (List Nat) × Int :=
  if c.IsExpired now then emptyValueTTL else (c.Value, c.Ttl)

/-! ## Configuration (cache/config.go and the cache constants) -/

def DefaultCleanerInterval : Int := 200
def DefaultKeysAmountByCycle : Int := 20
def ExpiredKeysPercentageTolerance : Nat := 25
def MinCleanerInterval : Int := 50
def MinKeysAmountByCycle : Int := 5

/-- The Config struct with its two integer fields. -/
structure Config where
  CleanerInterval : Int
  KeysAmountByCycle : Int
  deriving Repr, DecidableEq

/-- DefaultConfig from cache/config.go. -/
def DefaultConfig : Config :=
  ⟨DefaultCleanerInterval, DefaultKeysAmountByCycle⟩

/-- validateAndAdjustConfig: each field below its minimum is replaced by its
default, independently; nothing is rejected. -/
def validateAndAdjustConfig (conf : Config) : Config :=
  let c1 := if conf.CleanerInterval < MinCleanerInterval
    then DefaultCleanerInterval else conf.CleanerInterval
  let c2 := if conf.KeysAmountByCycle < MinKeysAmountByCycle
    then DefaultKeysAmountByCycle else conf.KeysAmountByCycle
  ⟨c1, c2⟩

/-! ## The cache facade (ActiveCache Get and Set) -/

/-- The ActiveCache state relevant to Get, Set and the cleaner: the entries
table and the configuration. The mutex and the atomic flag serialize access
in Go; the embedding works on the state under the lock. -/
structure ActiveCache where
  entries : HashMap cacheEntry
  config : Config

/-- ActiveCache.Get: nil key short-circuits to (nil, 0); otherwise look the
key up and return GetValueTTL of the entry, or (nil, 0) when absent. -/
def ActiveCache.Get (hash : List Nat → Nat) (c : ActiveCache) (key : Option (List Nat))
    (now : Int) : Option (List Nat) × Int :=
  match key with
  | none => emptyValueTTL
  | some k =>
    match c.entries.Get hash k with
    | some e => e.GetValueTTL now
    | none => emptyValueTTL

/-- ActiveCache.Set: no-op on a nil key; negative TTL deletes the key;
otherwise store a fresh entry, with ExpiresAt = now + ttl when ttl is
positive and the zero sentinel when ttl is zero. -/
def ActiveCache.Set (hash : List Nat → Nat) (c : ActiveCache) (key value : Option (List Nat))
    (ttl now : Int) : ActiveCache :=
  match key with
  | none => c
  | some k =>
    if ttl < NoExpiration then
      { c with entries := c.entries.Delete hash k }
    else
      let expiresAt : Int := if ttl > NoExpiration then now + ttl else 0
      { c with entries := c.entries.Put hash k ⟨value, ttl, expiresAt⟩ }

/-! ## The sampling cleaner (defaultClean) -/

/-- Default record used for out-of-range indexing; a valid sample never
reaches it (in Go an out-of-range index would panic). Its entry has the
NoExpiration sentinel, so it is never expired. -/
def dfltEntry : hmEntry cacheEntry := ⟨0, [], ⟨none, 0, 0⟩⟩

/-- The sampling loop body of defaultClean: walk the chosen indices over the
snapshot list of entries; delete each expired sampled entry from the table
and count it. Returns the updated table and the deleted counter. -/
def cleanSample (hash : List Nat → Nat) (now : Int) (entries : List (hmEntry cacheEntry)) :
    List Nat → HashMap cacheEntry → HashMap cacheEntry × Nat
  | [], m => (m, 0)
  | i :: rest, m =>
    let e := entries.getD i dfltEntry
    if e.Value.IsExpired now then
      let r := cleanSample hash now entries rest (m.Delete hash e.Key)
      (r.1, r.2 + 1)
    else
      cleanSample hash now entries rest m

/-- The indices a cleaning pass checks: the random permutation of the range
of the enumerated entries, truncated to sampleSize = min KeysAmountByCycle
totalEntries, as indexesToCheck is in defaultClean. -/
def sampleIdx (oracle : Nat → Nat → List Nat) (conf : Config) (depth n : Nat) : List Nat :=
  (oracle depth n).take (min conf.KeysAmountByCycle (n : Int)).toNat

/-- defaultClean with explicit fuel for the self-recursion. Each invocation
enumerates the table, draws sampleSize = min KeysAmountByCycle totalEntries
indices from the random permutation oracle, deletes the expired sampled
entries, and re-runs itself when the expired share of the sample exceeds the
tolerance. Running out of fuel yields none. -/
def defaultClean (hash : List Nat → Nat) (oracle : Nat → Nat → List Nat) (now : Int) :
    Nat → Nat → HashMap cacheEntry → Config → Option (HashMap cacheEntry)
  | 0, _, _, _ => none
  | fuel + 1, depth, m, conf =>
    let entries := m.GetAll
    let sampleSize : Int := min conf.KeysAmountByCycle (entries.length : Int)
    if sampleSize = 0 then some m
    else
      let idx := sampleIdx oracle conf depth entries.length
      let r := cleanSample hash now entries idx m
      if r.2 * 100 / idx.length > ExpiredKeysPercentageTolerance then
        defaultClean hash oracle now fuel (depth + 1) r.1 conf
      else
        some r.1

/-- A random oracle is valid when, for every recursion depth, it yields a
permutation of the index range of the enumerated entries, as rand.Perm
does. -/
def ValidOracle (oracle : Nat → Nat → List Nat) : Prop :=
  ∀ depth n, (oracle depth n).Perm (List.range n)

/-! ## The cleaner scheduling loop (StartCleaner) -/

/-- Deliveries of the timer created by time.NewTimer in StartCleaner up to an
elapsed time horizon (both in milliseconds): the timer is never reset after
construction, so it delivers exactly once, when the first interval
elapses. -/
def timerDeliveries (interval horizon : Nat) : Nat :=
  if interval ≤ horizon then 1 else 0

/-- Number of performClean invocations the StartCleaner loop makes within a
time horizon: one per timer delivery. -/
def cleanerRuns (interval horizon : Nat) : Nat :=
  timerDeliveries interval horizon

/-- Modelled from the spec: the scheduling loop described in the spec runs
the sampler on each fixed-interval tick, so within a horizon it performs one
invocation per elapsed interval. The running loop itself is in
StartCleaner (src/unnamed/part_001); its per-tick behavior is what this
definition renders. -/
def specCleanerRuns (interval horizon : Nat) : Nat :=
  horizon / interval

/-! ## Reachable-state invariants of the hash table -/

/-- Well-formedness of the stored records: every record of bucket i carries
the hash of its own key, and sits in the bucket selected by that hash. All
tables produced by Put and Delete from the empty table satisfy it. -/
def HashMapWF {V : Type} (hash : List Nat → Nat) (m : HashMap V) : Prop :=
  ∀ i, ∀ e ∈ m.data.getD i [], e.HashKey = hash e.Key ∧ e.HashKey % DefaultTableSize = i

/-- No two records of a bucket share a stored hash. Put never creates such a
pair (it overwrites in place), so reachable tables satisfy it. -/
def HashMapNoDupH {V : Type} (m : HashMap V) : Prop :=
  ∀ i, ((m.data.getD i []).map hmEntry.HashKey).Nodup

/-- Number of records of the whole table whose stored hash is h. -/
def countHash {V : Type} (m : HashMap V) (h : Nat) : Nat :=
  m.GetAll.countP (fun e => e.HashKey == h)

/-- The per-entry expiration-sentinel invariant: the ExpiresAt sentinel is
used exactly when the Ttl sentinel is. -/
def CacheEntryInv (e : cacheEntry) : Prop :=
  e.ExpiresAt = NoExpiration ↔ e.Ttl = NoExpiration

/-- The table-wide expiration-sentinel invariant. -/
def CacheInv (m : HashMap cacheEntry) : Prop :=
  ∀ e ∈ m.GetAll, CacheEntryInv e.Value

/-! ## Concrete instances used to evaluate the definitions -/

/-- A concrete hash function: first byte of the key. -/
def hashHead : List Nat → Nat := fun k => k.headD 0

/-- A concrete degenerate hash function on which every key collides. -/
def hashZero : List Nat → Nat := fun _ => 0

/-- A freshly constructed cache with the default configuration. -/
def cache0 : ActiveCache := ⟨HashMap.empty cacheEntry, DefaultConfig⟩

/-- A concrete random oracle: the identity permutation at every depth. -/
def oracleId : Nat → Nat → List Nat := fun _ n => List.range n

/-- A configuration with the minimum sample size of 5 keys per cycle. -/
def conf5 : Config := ⟨200, 5⟩

/-- A concrete eight-entry table: keys [0] to [7] in buckets 0 to 7 under
hashHead; the entries of keys [0], [1] and [7] have ExpiresAt 1 (expired at
clock 5), the others the NoExpiration sentinel. -/
def m8 : HashMap cacheEntry :=
  ((((((((HashMap.empty cacheEntry).Put hashHead [0] ⟨some [0], 1, 1⟩).Put
    hashHead [1] ⟨some [1], 1, 1⟩).Put
    hashHead [2] ⟨some [2], 1, 0⟩).Put
    hashHead [3] ⟨some [3], 1, 0⟩).Put
    hashHead [4] ⟨some [4], 1, 0⟩).Put
    hashHead [5] ⟨some [5], 1, 0⟩).Put
    hashHead [6] ⟨some [6], 1, 0⟩).Put
    hashHead [7] ⟨some [7], 1, 1⟩

/-! ## List-level helper lemmas -/

theorem getD_set_self {α : Type} :
    ∀ (l : List α) (i : Nat) (b d : α), i < l.length → (l.set i b).getD i d = b
  | [], i, _, _, h => absurd h (by simp)
  | _ :: _, 0, _, _, _ => rfl
  | _ :: t, i + 1, b, d, h =>
    getD_set_self t i b d (by simpa using h)

theorem getD_set_ne {α : Type} :
    ∀ (l : List α) (i j : Nat) (b : α) (d : α), j ≠ i → (l.set i b).getD j d = l.getD j d
  | [], _, _, _, _, _ => rfl
  | _ :: _, 0, 0, _, _, h => absurd rfl h
  | _ :: _, 0, _ + 1, _, _, _ => rfl
  | _ :: _, _ + 1, 0, _, _, _ => rfl
  | _ :: t, i + 1, j + 1, b, d, h =>
    getD_set_ne t i j b d (fun hc => h (by rw [hc]))

theorem flatten_countP_set {α : Type} (p : α → Bool) :
    ∀ (L : List (List α)) (i : Nat) (b : List α), i < L.length →
      ((L.set i b).flatten).countP p + (L.getD i []).countP p
        = L.flatten.countP p + b.countP p
  | [], i, _, h => absurd h (by simp)
  | a :: T, 0, b, _ => by
    simp only [List.set, List.flatten_cons, List.countP_append, List.getD_cons_zero]
    omega
  | a :: T, i + 1, b, h => by
    have ih := flatten_countP_set p T i b (by simpa using h)
    simp only [List.set, List.flatten_cons, List.countP_append, List.getD_cons_succ]
    omega

theorem flatten_length_set {α : Type} :
    ∀ (L : List (List α)) (i : Nat) (b : List α), i < L.length →
      ((L.set i b).flatten).length + (L.getD i []).length
        = L.flatten.length + b.length := by
  intro L i b h
  have := flatten_countP_set (fun _ => true) L i b h
  simpa [List.countP_true] using this

theorem mem_flatten_getD {α : Type} {x : α} {L : List (List α)} :
    x ∈ L.flatten ↔ ∃ i, i < L.length ∧ x ∈ L.getD i [] := by
  rw [List.mem_flatten]
  constructor
  · rintro ⟨l, hl, hx⟩
    rcases List.mem_iff_getElem.mp hl with ⟨i, hi, rfl⟩
    exact ⟨i, hi, by rwa [List.getD_eq_getElem _ _ hi]⟩
  · rintro ⟨i, hi, hx⟩
    exact ⟨L.getD i [], by rw [List.getD_eq_getElem _ _ hi]; exact List.getElem_mem hi, hx⟩

theorem nodup_map_inj {α β : Type} {f : α → β} {l : List α} (h : (l.map f).Nodup) :
    ∀ a ∈ l, ∀ b ∈ l, f a = f b → a = b := by
  intro a ha b hb hab
  exact List.inj_on_of_nodup_map h ha hb hab

/-! ## Bucket-level lemmas -/

theorem getBucket_putBucket_self {V : Type} (h : Nat) (key : List Nat) (v : V) :
    ∀ b : List (hmEntry V), getBucket h (putBucket h key v b) = some v
  | [] => by simp [putBucket, getBucket]
  | e :: es => by
    by_cases he : e.HashKey = h
    · simp [putBucket, getBucket, he]
    · simp only [putBucket, getBucket, if_neg he]
      exact getBucket_putBucket_self h key v es

theorem getBucket_putBucket_ne {V : Type} {h h' : Nat} (key : List Nat) (v : V)
    (hne : h' ≠ h) :
    ∀ b : List (hmEntry V), getBucket h' (putBucket h key v b) = getBucket h' b
  | [] => by simp [putBucket, getBucket, Ne.symm hne]
  | e :: es => by
    by_cases he : e.HashKey = h
    · have h1 : ¬(h = h') := fun hc => hne hc.symm
      simp [putBucket, getBucket, he, h1]
    · simp only [putBucket, getBucket, if_neg he]
      by_cases he' : e.HashKey = h'
      · simp [he']
      · simp only [if_neg he']
        exact getBucket_putBucket_ne key v hne es

theorem getBucket_delBucket_ne {V : Type} {h h' : Nat} (hne : h' ≠ h) :
    ∀ b : List (hmEntry V), getBucket h' (delBucket h b) = getBucket h' b
  | [] => rfl
  | e :: es => by
    by_cases he : e.HashKey = h
    · have h1 : ¬(h = h') := fun hc => hne hc.symm
      simp [delBucket, getBucket, he, h1]
    · simp only [delBucket, getBucket, if_neg he]
      by_cases he' : e.HashKey = h'
      · simp [he']
      · simp only [if_neg he']
        exact getBucket_delBucket_ne hne es

theorem getBucket_eq_none {V : Type} {h : Nat} :
    ∀ {b : List (hmEntry V)}, h ∉ b.map hmEntry.HashKey → getBucket h b = none
  | [], _ => rfl
  | e :: es, hn => by
    simp only [List.map_cons, List.mem_cons] at hn
    push_neg at hn
    simp only [getBucket, if_neg (fun hc : e.HashKey = h => hn.1 hc.symm)]
    exact getBucket_eq_none hn.2

theorem getBucket_delBucket_self {V : Type} {h : Nat} :
    ∀ {b : List (hmEntry V)}, (b.map hmEntry.HashKey).Nodup →
      getBucket h (delBucket h b) = none
  | [], _ => rfl
  | e :: es, hn => by
    simp only [List.map_cons, List.nodup_cons] at hn
    by_cases he : e.HashKey = h
    · simp only [delBucket, if_pos he]
      exact getBucket_eq_none (he ▸ hn.1)
    · simp only [delBucket, getBucket, if_neg he]
      exact getBucket_delBucket_self hn.2

theorem delBucket_sublist {V : Type} (h : Nat) :
    ∀ b : List (hmEntry V), List.Sublist (delBucket h b) b
  | [] => List.Sublist.refl []
  | e :: es => by
    by_cases he : e.HashKey = h
    · simp only [delBucket, if_pos he]
      exact List.sublist_cons_self e es
    · simp only [delBucket, if_neg he]
      exact (delBucket_sublist h es).cons₂ e

theorem delBucket_length_lt {V : Type} {h : Nat} :
    ∀ {b : List (hmEntry V)}, (∃ e ∈ b, e.HashKey = h) →
      (delBucket h b).length + 1 = b.length
  | [], hex => absurd hex (by simp)
  | e :: es, hex => by
    by_cases he : e.HashKey = h
    · simp [delBucket, if_pos he]
    · simp only [delBucket, if_neg he, List.length_cons]
      rcases hex with ⟨x, hx, hxh⟩
      rcases List.mem_cons.mp hx with h2 | h2
      · exact absurd (h2 ▸ hxh) he
      · rw [delBucket_length_lt ⟨x, h2, hxh⟩]

theorem mem_delBucket_iff {V : Type} {h : Nat} :
    ∀ {b : List (hmEntry V)}, (b.map hmEntry.HashKey).Nodup → ∀ {e : hmEntry V},
      (e ∈ delBucket h b ↔ e ∈ b ∧ e.HashKey ≠ h)
  | [], _, e => by simp [delBucket]
  | x :: es, hn, e => by
    simp only [List.map_cons, List.nodup_cons, List.mem_map] at hn
    by_cases hx : x.HashKey = h
    · simp only [delBucket, if_pos hx, List.mem_cons]
      constructor
      · intro he
        refine ⟨Or.inr he, fun hc => ?_⟩
        exact hn.1 ⟨e, he, by rw [hc, hx]⟩
      · rintro ⟨he | he, hne⟩
        · exact absurd (he ▸ hx) hne
        · exact he
    · simp only [delBucket, if_neg hx, List.mem_cons]
      constructor
      · intro he
        rcases he with rfl | he
        · exact ⟨Or.inl rfl, hx⟩
        · have := (mem_delBucket_iff hn.2).mp he
          exact ⟨Or.inr this.1, this.2⟩
      · rintro ⟨he | he, hne⟩
        · exact Or.inl he
        · exact Or.inr ((mem_delBucket_iff hn.2).mpr ⟨he, hne⟩)

theorem mem_putBucket {V : Type} {h : Nat} {k : List Nat} {v : V} :
    ∀ {b : List (hmEntry V)} {e : hmEntry V},
      e ∈ putBucket h k v b → e ∈ b ∨ e.Value = v
  | [], e, he => by
    simp only [putBucket, List.mem_singleton] at he
    exact Or.inr (by rw [he])
  | x :: es, e, he => by
    by_cases hx : x.HashKey = h
    · simp only [putBucket, if_pos hx, List.mem_cons] at he
      rcases he with rfl | he
      · exact Or.inr rfl
      · exact Or.inl (List.mem_cons_of_mem _ he)
    · simp only [putBucket, if_neg hx, List.mem_cons] at he
      rcases he with rfl | he
      · exact Or.inl (List.mem_cons_self _ _)
      · rcases mem_putBucket he with h2 | h2
        · exact Or.inl (List.mem_cons_of_mem _ h2)
        · exact Or.inr h2

theorem mem_map_putBucket {V : Type} {h : Nat} {k : List Nat} {v : V} :
    ∀ {b : List (hmEntry V)} {y : Nat},
      y ∈ (putBucket h k v b).map hmEntry.HashKey → y ∈ b.map hmEntry.HashKey ∨ y = h
  | [], y, hy => by
    simp only [putBucket, List.map_cons, List.map_nil, List.mem_singleton] at hy
    exact Or.inr hy
  | x :: es, y, hy => by
    by_cases hx : x.HashKey = h
    · simp only [putBucket, if_pos hx, List.map_cons, List.mem_cons] at hy ⊢
      exact Or.inl hy
    · simp only [putBucket, if_neg hx, List.map_cons, List.mem_cons] at hy ⊢
      rcases hy with rfl | hy
      · exact Or.inl (Or.inl rfl)
      · rcases mem_map_putBucket hy with h2 | h2
        · exact Or.inl (Or.inr h2)
        · exact Or.inr h2

theorem nodup_putBucket {V : Type} {h : Nat} {k : List Nat} {v : V} :
    ∀ {b : List (hmEntry V)}, (b.map hmEntry.HashKey).Nodup →
      ((putBucket h k v b).map hmEntry.HashKey).Nodup
  | [], _ => by simp [putBucket]
  | x :: es, hn => by
    simp only [List.map_cons, List.nodup_cons] at hn
    by_cases hx : x.HashKey = h
    · simp only [putBucket, if_pos hx, List.map_cons, List.nodup_cons]
      exact ⟨hn.1, hn.2⟩
    · simp only [putBucket, if_neg hx, List.map_cons, List.nodup_cons]
      refine ⟨fun hc => ?_, nodup_putBucket hn.2⟩
      rcases mem_map_putBucket hc with h2 | h2
      · exact hn.1 h2
      · exact hx h2

theorem WFb_putBucket {V : Type} {hash : List Nat → Nat} {i : Nat} {k : List Nat} {v : V}
    (hk : hash k % DefaultTableSize = i) :
    ∀ {b : List (hmEntry V)},
      (∀ e ∈ b, e.HashKey = hash e.Key ∧ e.HashKey % DefaultTableSize = i) →
      ∀ e ∈ putBucket (hash k) k v b, e.HashKey = hash e.Key ∧ e.HashKey % DefaultTableSize = i
  | [], _, e, he => by
    simp only [putBucket, List.mem_singleton] at he
    subst he
    exact ⟨rfl, hk⟩
  | x :: es, hb, e, he => by
    by_cases hx : x.HashKey = hash k
    · simp only [putBucket, if_pos hx, List.mem_cons] at he
      rcases he with rfl | he
      · exact hb x (List.mem_cons_self _ _)
      · exact hb e (List.mem_cons_of_mem _ he)
    · simp only [putBucket, if_neg hx, List.mem_cons] at he
      rcases he with rfl | he
      · exact hb e (List.mem_cons_self _ _)
      · exact WFb_putBucket hk (fun x2 hx2 => hb x2 (List.mem_cons_of_mem _ hx2)) e he

/-! ## Table-level lemmas -/

theorem bucketIdx_lt {V : Type} (m : HashMap V) (h : Nat) :
    h % DefaultTableSize < m.data.length := by
  rw [m.hlen]
  exact Nat.mod_lt _ (by norm_num [DefaultTableSize])

theorem getD_replicate_nil {α : Type} : ∀ (n i : Nat),
    (List.replicate n ([] : List α)).getD i [] = []
  | 0, _ => rfl
  | _ + 1, 0 => rfl
  | n + 1, i + 1 => getD_replicate_nil n i

theorem HashMap.Get_Put_self {V : Type} (hash : List Nat → Nat) (m : HashMap V)
    (k : List Nat) (v : V) : (m.Put hash k v).Get hash k = some v := by
  show getBucket (hash k) ((m.data.set _ _).getD (hash k % DefaultTableSize) []) = some v
  rw [getD_set_self _ _ _ _ (bucketIdx_lt m (hash k))]
  exact getBucket_putBucket_self _ _ _ _

theorem HashMap.Get_Put_ne {V : Type} {hash : List Nat → Nat} {k k' : List Nat}
    (hne : hash k' ≠ hash k) (m : HashMap V) (v : V) :
    (m.Put hash k v).Get hash k' = m.Get hash k' := by
  show getBucket (hash k') ((m.data.set _ _).getD (hash k' % DefaultTableSize) [])
    = getBucket (hash k') (m.data.getD (hash k' % DefaultTableSize) [])
  by_cases hb : hash k' % DefaultTableSize = hash k % DefaultTableSize
  · rw [hb, getD_set_self _ _ _ _ (bucketIdx_lt m (hash k))]
    exact getBucket_putBucket_ne _ _ hne _
  · rw [getD_set_ne _ _ _ _ _ hb]

theorem HashMap.Get_Delete_ne {V : Type} {hash : List Nat → Nat} {k k' : List Nat}
    (hne : hash k' ≠ hash k) (m : HashMap V) :
    (m.Delete hash k).Get hash k' = m.Get hash k' := by
  show getBucket (hash k') ((m.data.set _ _).getD (hash k' % DefaultTableSize) [])
    = getBucket (hash k') (m.data.getD (hash k' % DefaultTableSize) [])
  by_cases hb : hash k' % DefaultTableSize = hash k % DefaultTableSize
  · rw [hb, getD_set_self _ _ _ _ (bucketIdx_lt m (hash k))]
    exact getBucket_delBucket_ne hne _
  · rw [getD_set_ne _ _ _ _ _ hb]

theorem HashMap.Get_Delete_self {V : Type} {hash : List Nat → Nat} {m : HashMap V}
    (hN : HashMapNoDupH m) (k : List Nat) :
    (m.Delete hash k).Get hash k = none := by
  show getBucket (hash k) ((m.data.set _ _).getD (hash k % DefaultTableSize) []) = none
  rw [getD_set_self _ _ _ _ (bucketIdx_lt m (hash k))]
  exact getBucket_delBucket_self (hN (hash k % DefaultTableSize))

theorem HashMapWF_empty {V : Type} (hash : List Nat → Nat) :
    HashMapWF hash (HashMap.empty V) := by
  intro i e he
  rw [show (HashMap.empty V).data = List.replicate DefaultTableSize [] from rfl,
    getD_replicate_nil] at he
  exact absurd he (List.not_mem_nil e)

theorem HashMapNoDupH_empty {V : Type} : HashMapNoDupH (HashMap.empty V) := by
  intro i
  rw [show (HashMap.empty V).data = List.replicate DefaultTableSize [] from rfl,
    getD_replicate_nil]
  exact List.nodup_nil

theorem HashMapWF_Put {V : Type} {hash : List Nat → Nat} {m : HashMap V}
    (hW : HashMapWF hash m) (k : List Nat) (v : V) :
    HashMapWF hash (m.Put hash k v) := by
  intro i e he
  change e ∈ (m.data.set _ _).getD i [] at he
  by_cases hb : i = hash k % DefaultTableSize
  · subst hb
    rw [getD_set_self _ _ _ _ (bucketIdx_lt m (hash k))] at he
    exact WFb_putBucket rfl (hW _) e he
  · rw [getD_set_ne _ _ _ _ _ (fun hc => hb hc)] at he
    exact hW i e he

theorem HashMapWF_Delete {V : Type} {hash : List Nat → Nat} {m : HashMap V}
    (hW : HashMapWF hash m) (k : List Nat) :
    HashMapWF hash (m.Delete hash k) := by
  intro i e he
  change e ∈ (m.data.set _ _).getD i [] at he
  by_cases hb : i = hash k % DefaultTableSize
  · subst hb
    rw [getD_set_self _ _ _ _ (bucketIdx_lt m (hash k))] at he
    exact hW _ e ((delBucket_sublist _ _).subset he)
  · rw [getD_set_ne _ _ _ _ _ (fun hc => hb hc)] at he
    exact hW i e he

theorem HashMapNoDupH_Put {V : Type} (hash : List Nat → Nat) {m : HashMap V}
    (hN : HashMapNoDupH m) (k : List Nat) (v : V) :
    HashMapNoDupH (m.Put hash k v) := by
  intro i
  change ((m.data.set _ _).getD i [] |>.map hmEntry.HashKey).Nodup
  by_cases hb : i = hash k % DefaultTableSize
  · subst hb
    rw [getD_set_self _ _ _ _ (bucketIdx_lt m (hash k))]
    exact nodup_putBucket (hN _)
  · rw [getD_set_ne _ _ _ _ _ (fun hc => hb hc)]
    exact hN i

theorem HashMapNoDupH_Delete {V : Type} (hash : List Nat → Nat) {m : HashMap V}
    (hN : HashMapNoDupH m) (k : List Nat) :
    HashMapNoDupH (m.Delete hash k) := by
  intro i
  change ((m.data.set _ _).getD i [] |>.map hmEntry.HashKey).Nodup
  by_cases hb : i = hash k % DefaultTableSize
  · subst hb
    rw [getD_set_self _ _ _ _ (bucketIdx_lt m (hash k))]
    exact (hN _).sublist ((delBucket_sublist _ _).map _)
  · rw [getD_set_ne _ _ _ _ _ (fun hc => hb hc)]
    exact hN i

theorem WF_mem {V : Type} {hash : List Nat → Nat} {m : HashMap V}
    (hW : HashMapWF hash m) {e : hmEntry V} (he : e ∈ m.GetAll) :
    e.HashKey = hash e.Key ∧ e ∈ m.data.getD (e.HashKey % DefaultTableSize) [] := by
  rcases mem_flatten_getD.mp he with ⟨i, _, hei⟩
  rcases hW i e hei with ⟨h1, h2⟩
  exact ⟨h1, by rw [h2]; exact hei⟩

theorem data_length_eq {V : Type} (m m2 : HashMap V) : m.data.length = m2.data.length := by
  rw [m.hlen, m2.hlen]

theorem mem_GetAll_Delete {V : Type} {hash : List Nat → Nat} {m : HashMap V}
    {k : List Nat} {e : hmEntry V} (he : e ∈ (m.Delete hash k).GetAll) :
    e ∈ m.GetAll := by
  rcases mem_flatten_getD.mp he with ⟨i, hi, hei⟩
  change e ∈ (m.data.set _ _).getD i [] at hei
  by_cases hb : i = hash k % DefaultTableSize
  · subst hb
    rw [getD_set_self _ _ _ _ (bucketIdx_lt m (hash k))] at hei
    exact mem_flatten_getD.mpr ⟨_, bucketIdx_lt m (hash k), (delBucket_sublist _ _).subset hei⟩
  · rw [getD_set_ne _ _ _ _ _ (fun hc => hb hc)] at hei
    rw [data_length_eq _ m] at hi
    exact mem_flatten_getD.mpr ⟨i, hi, hei⟩

theorem mem_GetAll_Put {V : Type} {hash : List Nat → Nat} {m : HashMap V}
    {k : List Nat} {v : V} {e : hmEntry V} (he : e ∈ (m.Put hash k v).GetAll) :
    e ∈ m.GetAll ∨ e.Value = v := by
  rcases mem_flatten_getD.mp he with ⟨i, hi, hei⟩
  change e ∈ (m.data.set _ _).getD i [] at hei
  by_cases hb : i = hash k % DefaultTableSize
  · subst hb
    rw [getD_set_self _ _ _ _ (bucketIdx_lt m (hash k))] at hei
    rcases mem_putBucket hei with h2 | h2
    · exact Or.inl (mem_flatten_getD.mpr ⟨_, bucketIdx_lt m (hash k), h2⟩)
    · exact Or.inr h2
  · rw [getD_set_ne _ _ _ _ _ (fun hc => hb hc)] at hei
    rw [data_length_eq _ m] at hi
    exact Or.inl (mem_flatten_getD.mpr ⟨i, hi, hei⟩)

theorem mem_GetAll_Delete_iff {V : Type} {hash : List Nat → Nat} {m : HashMap V}
    (hW : HashMapWF hash m) (hN : HashMapNoDupH m) {k : List Nat} {e : hmEntry V} :
    e ∈ (m.Delete hash k).GetAll ↔ e ∈ m.GetAll ∧ e.HashKey ≠ hash k := by
  constructor
  · intro he
    rcases mem_flatten_getD.mp he with ⟨i, hi, hei⟩
    change e ∈ (m.data.set _ _).getD i [] at hei
    by_cases hb : i = hash k % DefaultTableSize
    · subst hb
      rw [getD_set_self _ _ _ _ (bucketIdx_lt m (hash k))] at hei
      rcases (mem_delBucket_iff (hN _)).mp hei with ⟨h1, h2⟩
      exact ⟨mem_flatten_getD.mpr ⟨_, bucketIdx_lt m (hash k), h1⟩, h2⟩
    · rw [getD_set_ne _ _ _ _ _ (fun hc => hb hc)] at hei
      rw [data_length_eq _ m] at hi
      refine ⟨mem_flatten_getD.mpr ⟨i, hi, hei⟩, fun hc => ?_⟩
      exact hb ((hW i e hei).2 ▸ hc ▸ rfl)
  · rintro ⟨he, hne⟩
    rcases WF_mem hW he with ⟨h1, h2⟩
    by_cases hb : e.HashKey % DefaultTableSize = hash k % DefaultTableSize
    · refine mem_flatten_getD.mpr ⟨hash k % DefaultTableSize, ?_, ?_⟩
      · exact bucketIdx_lt (m.Delete hash k) (hash k)
      · change e ∈ (m.data.set _ _).getD (hash k % DefaultTableSize) []
        rw [getD_set_self _ _ _ _ (bucketIdx_lt m (hash k))]
        refine (mem_delBucket_iff (hN _)).mpr ⟨?_, hne⟩
        rw [← hb]; exact h2
    · refine mem_flatten_getD.mpr ⟨e.HashKey % DefaultTableSize, ?_, ?_⟩
      · exact bucketIdx_lt (m.Delete hash k) e.HashKey
      · change e ∈ (m.data.set _ _).getD (e.HashKey % DefaultTableSize) []
        rw [getD_set_ne _ _ _ _ _ hb]
        exact h2

theorem size_Delete_le {V : Type} (hash : List Nat → Nat) (m : HashMap V) (k : List Nat) :
    (m.Delete hash k).size ≤ m.size := by
  have h1 := flatten_length_set m.data (hash k % DefaultTableSize)
    (delBucket (hash k) (m.data.getD (hash k % DefaultTableSize) []))
    (bucketIdx_lt m (hash k))
  have h2 := ((delBucket_sublist (hash k)
    (m.data.getD (hash k % DefaultTableSize) [])).length_le)
  show ((m.data.set _ _).flatten).length ≤ m.data.flatten.length
  omega

theorem size_Delete_lt {V : Type} {hash : List Nat → Nat} {m : HashMap V} {k : List Nat}
    (hex : ∃ e ∈ m.data.getD (hash k % DefaultTableSize) [], e.HashKey = hash k) :
    (m.Delete hash k).size + 1 = m.size := by
  have h1 := flatten_length_set m.data (hash k % DefaultTableSize)
    (delBucket (hash k) (m.data.getD (hash k % DefaultTableSize) []))
    (bucketIdx_lt m (hash k))
  have h2 := delBucket_length_lt hex
  show ((m.data.set _ _).flatten).length + 1 = m.data.flatten.length
  omega

theorem size_Delete_lt_of_mem {V : Type} {hash : List Nat → Nat} {m : HashMap V}
    (hW : HashMapWF hash m) {e : hmEntry V} (he : e ∈ m.GetAll) :
    (m.Delete hash e.Key).size + 1 = m.size := by
  rcases WF_mem hW he with ⟨h1, h2⟩
  refine size_Delete_lt ⟨e, ?_, h1⟩
  rw [← h1]
  exact h2

theorem GetAll_hash_inj {V : Type} {hash : List Nat → Nat} {m : HashMap V}
    (hW : HashMapWF hash m) (hN : HashMapNoDupH m) {a b : hmEntry V}
    (ha : a ∈ m.GetAll) (hb : b ∈ m.GetAll) (hab : a.HashKey = b.HashKey) : a = b := by
  rcases WF_mem hW ha with ⟨_, ha2⟩
  rcases WF_mem hW hb with ⟨_, hb2⟩
  rw [hab] at ha2
  exact nodup_map_inj (hN (b.HashKey % DefaultTableSize)) a ha2 b hb2 hab

/-! ## Lemmas about one pass of the sampler -/

theorem expired_getD_mem {entries0 : List (hmEntry cacheEntry)} {i : Nat} {now : Int}
    (hx : (entries0.getD i dfltEntry).Value.IsExpired now = true) :
    entries0.getD i dfltEntry ∈ entries0 := by
  by_cases hi : i < entries0.length
  · rw [List.getD_eq_getElem _ _ hi]
    exact List.getElem_mem hi
  · rw [List.getD_eq_default _ _ (by omega)] at hx
    simp [dfltEntry, cacheEntry.IsExpired, NoExpiration] at hx

theorem cleanSample_subset (hash : List Nat → Nat) (now : Int)
    (entries0 : List (hmEntry cacheEntry)) :
    ∀ (sample : List Nat) (m : HashMap cacheEntry) {e : hmEntry cacheEntry},
      e ∈ (cleanSample hash now entries0 sample m).1.GetAll → e ∈ m.GetAll
  | [], _, _, he => he
  | i :: rest, m, e, he => by
    simp only [cleanSample] at he
    by_cases hx : (entries0.getD i dfltEntry).Value.IsExpired now
    · rw [if_pos hx] at he
      exact mem_GetAll_Delete (cleanSample_subset hash now entries0 rest _ he)
    · rw [if_neg hx] at he
      exact cleanSample_subset hash now entries0 rest m he

theorem cleanSample_size_le (hash : List Nat → Nat) (now : Int)
    (entries0 : List (hmEntry cacheEntry)) :
    ∀ (sample : List Nat) (m : HashMap cacheEntry),
      (cleanSample hash now entries0 sample m).1.size ≤ m.size
  | [], _ => le_refl _
  | i :: rest, m => by
    simp only [cleanSample]
    by_cases hx : (entries0.getD i dfltEntry).Value.IsExpired now
    · rw [if_pos hx]
      exact le_trans (cleanSample_size_le hash now entries0 rest _)
        (size_Delete_le hash m _)
    · rw [if_neg hx]
      exact cleanSample_size_le hash now entries0 rest m

theorem cleanSample_WF {hash : List Nat → Nat} (now : Int)
    (entries0 : List (hmEntry cacheEntry)) :
    ∀ (sample : List Nat) (m : HashMap cacheEntry), HashMapWF hash m →
      HashMapWF hash (cleanSample hash now entries0 sample m).1
  | [], _, hW => hW
  | i :: rest, m, hW => by
    simp only [cleanSample]
    by_cases hx : (entries0.getD i dfltEntry).Value.IsExpired now
    · rw [if_pos hx]
      exact cleanSample_WF now entries0 rest _ (HashMapWF_Delete hW _)
    · rw [if_neg hx]
      exact cleanSample_WF now entries0 rest m hW

theorem cleanSample_NoDupH {hash : List Nat → Nat} (now : Int)
    (entries0 : List (hmEntry cacheEntry)) :
    ∀ (sample : List Nat) (m : HashMap cacheEntry), HashMapNoDupH m →
      HashMapNoDupH (cleanSample hash now entries0 sample m).1
  | [], _, hN => hN
  | i :: rest, m, hN => by
    simp only [cleanSample]
    by_cases hx : (entries0.getD i dfltEntry).Value.IsExpired now
    · rw [if_pos hx]
      exact cleanSample_NoDupH now entries0 rest _ (HashMapNoDupH_Delete hash hN _)
    · rw [if_neg hx]
      exact cleanSample_NoDupH now entries0 rest m hN

theorem cleanSample_size_lt {hash : List Nat → Nat} {now : Int} :
    ∀ (sample : List Nat) (m : HashMap cacheEntry), HashMapWF hash m →
      1 ≤ (cleanSample hash now m.GetAll sample m).2 →
      (cleanSample hash now m.GetAll sample m).1.size < m.size
  | [], m, _, hc => by simp [cleanSample] at hc
  | i :: rest, m, hW, hc => by
    simp only [cleanSample]
    by_cases hx : (m.GetAll.getD i dfltEntry).Value.IsExpired now
    · rw [if_pos hx]
      dsimp only
      have hmem : m.GetAll.getD i dfltEntry ∈ m.GetAll := expired_getD_mem hx
      have h1 := cleanSample_size_le hash now m.GetAll rest
        (m.Delete hash (m.GetAll.getD i dfltEntry).Key)
      have h2 := size_Delete_lt_of_mem hW hmem
      omega
    · rw [if_neg hx]
      refine cleanSample_size_lt rest m hW ?_
      simp only [cleanSample, if_neg hx] at hc
      exact hc

theorem cleanSample_id (hash : List Nat → Nat) (now : Int)
    (entries0 : List (hmEntry cacheEntry)) :
    ∀ (sample : List Nat) (m : HashMap cacheEntry),
      (∀ i ∈ sample, (entries0.getD i dfltEntry).Value.IsExpired now = false) →
      cleanSample hash now entries0 sample m = (m, 0)
  | [], _, _ => rfl
  | i :: rest, m, hall => by
    simp only [cleanSample]
    rw [if_neg (by rw [hall i (List.mem_cons_self _ _)]; exact Bool.false_ne_true)]
    exact cleanSample_id hash now entries0 rest m
      (fun j hj => hall j (List.mem_cons_of_mem _ hj))

theorem cleanSample_mem_iff (hash : List Nat → Nat) (now : Int)
    (entries0 : List (hmEntry cacheEntry)) :
    ∀ (sample : List Nat) (m : HashMap cacheEntry), HashMapWF hash m → HashMapNoDupH m →
      (∀ i ∈ sample, (entries0.getD i dfltEntry).HashKey
        = hash (entries0.getD i dfltEntry).Key) →
      ∀ e : hmEntry cacheEntry,
        (e ∈ (cleanSample hash now entries0 sample m).1.GetAll ↔
          e ∈ m.GetAll ∧ ∀ i ∈ sample,
            (entries0.getD i dfltEntry).Value.IsExpired now = true →
            (entries0.getD i dfltEntry).HashKey ≠ e.HashKey)
  | [], m, _, _, _, e => by simp [cleanSample]
  | i :: rest, m, hW, hN, hker, e => by
    simp only [cleanSample]
    by_cases hx : (entries0.getD i dfltEntry).Value.IsExpired now
    · rw [if_pos hx]
      have ih := cleanSample_mem_iff hash now entries0 rest
        (m.Delete hash (entries0.getD i dfltEntry).Key)
        (HashMapWF_Delete hW _) (HashMapNoDupH_Delete hash hN _)
        (fun j hj => hker j (List.mem_cons_of_mem _ hj)) e
      rw [ih, mem_GetAll_Delete_iff hW hN]
      rw [← hker i (List.mem_cons_self _ _)]
      simp only [List.forall_mem_cons, hx, forall_const]
      constructor
      · rintro ⟨⟨h1, h2⟩, h3⟩
        exact ⟨h1, fun hc => h2 hc.symm, h3⟩
      · rintro ⟨h1, h2, h3⟩
        exact ⟨⟨h1, fun hc => h2 hc.symm⟩, h3⟩
    · rw [if_neg hx]
      have ih := cleanSample_mem_iff hash now entries0 rest m hW hN
        (fun j hj => hker j (List.mem_cons_of_mem _ hj)) e
      rw [ih]
      simp only [List.forall_mem_cons, hx]
      constructor
      · rintro ⟨h1, h3⟩
        exact ⟨h1, fun hc => absurd hc (by simp), h3⟩
      · rintro ⟨h1, _, h3⟩
        exact ⟨h1, h3⟩

/-! ## Lemmas about the full sampler cascade -/

theorem notExpired_getD {entries0 : List (hmEntry cacheEntry)} {now : Int}
    (hne : ∀ e ∈ entries0, e.Value.IsExpired now = false) (i : Nat) :
    (entries0.getD i dfltEntry).Value.IsExpired now = false := by
  rcases Bool.eq_false_or_eq_true ((entries0.getD i dfltEntry).Value.IsExpired now) with h | h
  · exact absurd (hne _ (expired_getD_mem h)) (by rw [h]; exact fun hc => Bool.noConfusion hc)
  · exact h

theorem defaultClean_succ (hash : List Nat → Nat) (oracle : Nat → Nat → List Nat)
    (now : Int) (fuel depth : Nat) (m : HashMap cacheEntry) (conf : Config) :
    defaultClean hash oracle now (fuel + 1) depth m conf =
      if (min conf.KeysAmountByCycle (m.GetAll.length : Int)) = 0 then some m
      else if (cleanSample hash now m.GetAll
            (sampleIdx oracle conf depth m.GetAll.length) m).2 * 100
          / (sampleIdx oracle conf depth m.GetAll.length).length
          > ExpiredKeysPercentageTolerance then
        defaultClean hash oracle now fuel (depth + 1)
          (cleanSample hash now m.GetAll (sampleIdx oracle conf depth m.GetAll.length) m).1 conf
      else
        some (cleanSample hash now m.GetAll (sampleIdx oracle conf depth m.GetAll.length) m).1 :=
  rfl

theorem defaultClean_isSome (hash : List Nat → Nat) (oracle : Nat → Nat → List Nat)
    (now : Int) (conf : Config) :
    ∀ (fuel depth : Nat) (m : HashMap cacheEntry), HashMapWF hash m → m.size < fuel →
      (defaultClean hash oracle now fuel depth m conf).isSome = true
  | 0, _, _, _, hf => absurd hf (Nat.not_lt_zero _)
  | fuel + 1, depth, m, hW, hf => by
    rw [defaultClean_succ]
    by_cases h0 : (min conf.KeysAmountByCycle (m.GetAll.length : Int)) = 0
    · rw [if_pos h0]
      rfl
    · rw [if_neg h0]
      by_cases hg : (cleanSample hash now m.GetAll
            (sampleIdx oracle conf depth m.GetAll.length) m).2 * 100
          / (sampleIdx oracle conf depth m.GetAll.length).length
          > ExpiredKeysPercentageTolerance
      · rw [if_pos hg]
        have hdel : 1 ≤ (cleanSample hash now m.GetAll
            (sampleIdx oracle conf depth m.GetAll.length) m).2 := by
          by_contra hc
          push_neg at hc
          have hz : (cleanSample hash now m.GetAll
              (sampleIdx oracle conf depth m.GetAll.length) m).2 = 0 := by omega
          rw [hz] at hg
          simp [ExpiredKeysPercentageTolerance] at hg
        have hlt := cleanSample_size_lt (sampleIdx oracle conf depth m.GetAll.length) m hW hdel
        exact defaultClean_isSome hash oracle now conf fuel (depth + 1) _
          (cleanSample_WF now m.GetAll _ m hW) (by omega)
      · rw [if_neg hg]
        rfl

theorem defaultClean_subset (hash : List Nat → Nat) (oracle : Nat → Nat → List Nat)
    (now : Int) (conf : Config) :
    ∀ (fuel depth : Nat) (m m2 : HashMap cacheEntry),
      defaultClean hash oracle now fuel depth m conf = some m2 →
      ∀ e : hmEntry cacheEntry, e ∈ m2.GetAll → e ∈ m.GetAll
  | 0, _, _, _, h => by simp [defaultClean] at h
  | fuel + 1, depth, m, m2, h => by
    rw [defaultClean_succ] at h
    by_cases h0 : (min conf.KeysAmountByCycle (m.GetAll.length : Int)) = 0
    · rw [if_pos h0] at h
      have hm := Option.some.inj h
      subst hm
      exact fun _ he => he
    · rw [if_neg h0] at h
      by_cases hg : (cleanSample hash now m.GetAll
            (sampleIdx oracle conf depth m.GetAll.length) m).2 * 100
          / (sampleIdx oracle conf depth m.GetAll.length).length
          > ExpiredKeysPercentageTolerance
      · rw [if_pos hg] at h
        intro e he
        exact cleanSample_subset hash now m.GetAll _ m
          (defaultClean_subset hash oracle now conf fuel (depth + 1) _ m2 h e he)
      · rw [if_neg hg] at h
        have hm := Option.some.inj h
        intro e he
        rw [← hm] at he
        exact cleanSample_subset hash now m.GetAll _ m he

theorem defaultClean_noExpired_fix (hash : List Nat → Nat) (oracle : Nat → Nat → List Nat)
    (now : Int) (conf : Config) (fuel depth : Nat) (m : HashMap cacheEntry)
    (hne : ∀ e ∈ m.GetAll, e.Value.IsExpired now = false) :
    defaultClean hash oracle now (fuel + 1) depth m conf = some m := by
  rw [defaultClean_succ]
  by_cases h0 : (min conf.KeysAmountByCycle (m.GetAll.length : Int)) = 0
  · rw [if_pos h0]
  · rw [if_neg h0]
    have hid := cleanSample_id hash now m.GetAll
      (sampleIdx oracle conf depth m.GetAll.length) m
      (fun i _ => notExpired_getD hne i)
    rw [hid]
    simp [ExpiredKeysPercentageTolerance]

/-! ## Helper lemmas about the cache facade -/

theorem Set_entries_neg (hash : List Nat → Nat) (c : ActiveCache) (k : List Nat)
    (v : Option (List Nat)) {ttl : Int} (h : ttl < 0) (now : Int) :
    (c.Set hash (some k) v ttl now).entries = c.entries.Delete hash k := by
  simp [ActiveCache.Set, NoExpiration, h]

theorem Set_entries_nonneg (hash : List Nat → Nat) (c : ActiveCache) (k : List Nat)
    (v : Option (List Nat)) {ttl : Int} (h : ¬ttl < 0) (now : Int) :
    (c.Set hash (some k) v ttl now).entries
      = c.entries.Put hash k ⟨v, ttl, if ttl > 0 then now + ttl else 0⟩ := by
  simp only [ActiveCache.Set, NoExpiration]
  rw [if_neg h]

theorem Get_eq_of_entry (hash : List Nat → Nat) (c : ActiveCache) (k : List Nat)
    (now : Int) {e : cacheEntry} (h : c.entries.Get hash k = some e) :
    c.Get hash (some k) now = e.GetValueTTL now := by
  simp [ActiveCache.Get, h]

theorem Get_eq_of_none (hash : List Nat → Nat) (c : ActiveCache) (k : List Nat)
    (now : Int) (h : c.entries.Get hash k = none) :
    c.Get hash (some k) now = (none, 0) := by
  simp [ActiveCache.Get, h, emptyValueTTL]

/-! ## Claim theorems -/

/-- C7: for every value and ttl, Set with the nil key leaves the cache state
completely unchanged, and Get with the nil key returns (nil, 0), in every
cache state. -/
theorem C7_nil_key (hash : List Nat → Nat) (c : ActiveCache)
    (value : Option (List Nat)) (ttl now now2 : Int) :
    c.Set hash none value ttl now = c ∧ c.Get hash none now2 = (none, 0) :=
  ⟨rfl, rfl⟩

/-- C2: for every non-nil key and non-nil value, Set of the key with ttl 0
followed by Get of the key returns exactly the value and ttl 0, whatever the
prior contents of the cache, the hash function and the clock readings. -/
theorem C2_round_trip (hash : List Nat → Nat) (c : ActiveCache) (k v : List Nat)
    (now now2 : Int) :
    (c.Set hash (some k) (some v) 0 now).Get hash (some k) now2 = (some v, 0) := by
  have h1 : (c.Set hash (some k) (some v) 0 now).entries
      = c.entries.Put hash k ⟨some v, 0, 0⟩ := by
    rw [Set_entries_nonneg hash c k (some v) (by norm_num) now]
    norm_num
  have h2 : (c.Set hash (some k) (some v) 0 now).entries.Get hash k
      = some ⟨some v, 0, 0⟩ := by
    rw [h1]
    exact HashMap.Get_Put_self hash c.entries k _
  rw [Get_eq_of_entry hash _ k now2 h2]
  simp [cacheEntry.GetValueTTL, cacheEntry.IsExpired, NoExpiration]

/-- C9: each configuration field is clamped independently: a CleanerInterval
below the minimum 50 becomes the default 200, a KeysAmountByCycle below the
minimum 5 becomes the default 20, and values at or above the minimum are
kept; the adjustment is total, so construction never rejects a value. -/
theorem C9_config_clamping :
    (∀ ci k : Int, validateAndAdjustConfig ⟨ci, k⟩ =
      ⟨if ci < MinCleanerInterval then DefaultCleanerInterval else ci,
       if k < MinKeysAmountByCycle then DefaultKeysAmountByCycle else k⟩) ∧
    validateAndAdjustConfig ⟨0, 1⟩ = ⟨200, 20⟩ ∧
    validateAndAdjustConfig ⟨0, 5⟩ = ⟨200, 5⟩ ∧
    validateAndAdjustConfig ⟨50, 1⟩ = ⟨50, 20⟩ ∧
    validateAndAdjustConfig ⟨50, 5⟩ = ⟨50, 5⟩ := by
  refine ⟨fun ci k => rfl, ?_, ?_, ?_, ?_⟩ <;> decide

/-- C5: the StartCleaner loop waits on a timer that is created once and never
reset, so it performs exactly one clean once the first interval elapses and
none after, where the spec model of a fixed-interval tick performs one clean
per elapsed interval. With interval 200 and horizons 400 and 1000 the code
cleans once while the spec asks for 2 and 5 runs. -/
theorem C5_cleaner_runs_once :
    cleanerRuns 200 400 = 1 ∧ cleanerRuns 200 1000 = 1 ∧
    specCleanerRuns 200 400 = 2 ∧ specCleanerRuns 200 1000 = 5 := by
  decide

/-- C3: after Set of a key with duration d positive at clock now0 (with the
clock nonnegative, as UnixNano readings are), Get of the key strictly before
now0 + d returns the value and d, Get at or after now0 + d returns (nil, 0)
even though no cleaner ran, and an entry whose ExpiresAt is the NoExpiration
sentinel is never considered expired. -/
theorem C3_expiry_boundary (hash : List Nat → Nat) (c : ActiveCache) (k : List Nat)
    (v : Option (List Nat)) (d now0 : Int) (hd : 0 < d) (hnow : 0 ≤ now0) :
    (∀ now : Int, now < now0 + d →
      (c.Set hash (some k) v d now0).Get hash (some k) now = (v, d)) ∧
    (∀ now : Int, now0 + d ≤ now →
      (c.Set hash (some k) v d now0).Get hash (some k) now = (none, 0)) ∧
    (∀ (e : cacheEntry) (now : Int), e.ExpiresAt = NoExpiration →
      e.IsExpired now = false) := by
  have h1 : (c.Set hash (some k) v d now0).entries
      = c.entries.Put hash k ⟨v, d, now0 + d⟩ := by
    rw [Set_entries_nonneg hash c k v (by omega) now0]
    rw [if_pos hd]
  have h2 : (c.Set hash (some k) v d now0).entries.Get hash k = some ⟨v, d, now0 + d⟩ := by
    rw [h1]
    exact HashMap.Get_Put_self hash c.entries k _
  refine ⟨?_, ?_, ?_⟩
  · intro now hlt
    rw [Get_eq_of_entry hash _ k now h2]
    have hx : cacheEntry.IsExpired ⟨v, d, now0 + d⟩ now = false := by
      simp only [cacheEntry.IsExpired, NoExpiration]
      simp only [Bool.and_eq_false_iff, decide_eq_false_iff_not, not_le]
      right
      exact hlt
    simp [cacheEntry.GetValueTTL, hx]
  · intro now hge
    rw [Get_eq_of_entry hash _ k now h2]
    have hx : cacheEntry.IsExpired ⟨v, d, now0 + d⟩ now = true := by
      simp only [cacheEntry.IsExpired, NoExpiration]
      simp only [Bool.and_eq_true, decide_eq_true_iff]
      exact ⟨by omega, hge⟩
    simp [cacheEntry.GetValueTTL, hx, emptyValueTTL]
  · intro e now he
    simp [cacheEntry.IsExpired, he, NoExpiration]

/-- Instance of C3 on concrete inputs: key [1] and value [2] stored at clock
100 with ttl 7 are read back before expiry (clock 50) and gone at the
boundary (clock 107). -/
theorem C3_expiry_boundary_witness :
    (ActiveCache.Set (fun kk => kk.headD 0) ⟨HashMap.empty cacheEntry, DefaultConfig⟩
        (some [1]) (some [2]) 7 100).Get (fun kk => kk.headD 0) (some [1]) 50
      = (some [2], 7) ∧
    (ActiveCache.Set (fun kk => kk.headD 0) ⟨HashMap.empty cacheEntry, DefaultConfig⟩
        (some [1]) (some [2]) 7 100).Get (fun kk => kk.headD 0) (some [1]) 107
      = (none, 0) :=
  ⟨(C3_expiry_boundary (fun kk => kk.headD 0) ⟨HashMap.empty cacheEntry, DefaultConfig⟩
      [1] (some [2]) 7 100 (by decide) (by decide)).1 50 (by decide),
   (C3_expiry_boundary (fun kk => kk.headD 0) ⟨HashMap.empty cacheEntry, DefaultConfig⟩
      [1] (some [2]) 7 100 (by decide) (by decide)).2.1 107 (by decide)⟩

/-! ## Counting records by stored hash -/

theorem flatten_countP_single {α : Type} (p : α → Bool) :
    ∀ (L : List (List α)) (j : Nat),
      (∀ i, ∀ x ∈ L.getD i [], p x = true → i = j) →
      L.flatten.countP p = (L.getD j []).countP p
  | [], j, _ => by
    simp
  | a :: T, 0, hyp => by
    simp only [List.flatten_cons, List.countP_append, List.getD_cons_zero]
    have hz : T.flatten.countP p = 0 := by
      rw [List.countP_eq_zero]
      intro x hx hpx
      rcases mem_flatten_getD.mp hx with ⟨i, _, hxi⟩
      exact Nat.succ_ne_zero i (hyp (i + 1) x (by simpa using hxi) hpx)
    omega
  | a :: T, j + 1, hyp => by
    simp only [List.flatten_cons, List.countP_append, List.getD_cons_succ]
    have hz : a.countP p = 0 := by
      rw [List.countP_eq_zero]
      intro x hx hpx
      exact Nat.succ_ne_zero j ((hyp 0 x (by simpa using hx) hpx)).symm
    have ih := flatten_countP_single p T j (fun i x hx hpx => by
      have := hyp (i + 1) x (by simpa using hx) hpx
      omega)
    omega

theorem countHash_loc {V : Type} {hash : List Nat → Nat} {m : HashMap V}
    (hW : HashMapWF hash m) (h : Nat) :
    countHash m h
      = (m.data.getD (h % DefaultTableSize) []).countP (fun e => e.HashKey == h) := by
  refine flatten_countP_single _ m.data (h % DefaultTableSize) ?_
  intro i x hx hpx
  rcases hW i x hx with ⟨_, h2⟩
  have hxh : x.HashKey = h := by simpa using hpx
  rw [← h2, hxh]

theorem countP_hash_le_one {V : Type} {h : Nat} :
    ∀ {b : List (hmEntry V)}, (b.map hmEntry.HashKey).Nodup →
      b.countP (fun e => e.HashKey == h) ≤ 1
  | [], _ => by simp
  | x :: es, hn => by
    simp only [List.map_cons, List.nodup_cons] at hn
    by_cases hx : x.HashKey = h
    · rw [List.countP_cons_of_pos _ _ (by simpa using hx)]
      have hz : es.countP (fun e => e.HashKey == h) = 0 := by
        rw [List.countP_eq_zero]
        intro e he hpe
        have hh : e.HashKey = h := by simpa using hpe
        exact hn.1 (List.mem_map.mpr ⟨e, he, hh.trans hx.symm⟩)
      omega
    · rw [List.countP_cons_of_neg _ _ (by simpa using hx)]
      exact countP_hash_le_one hn.2

theorem countP_putBucket_self {V : Type} {h : Nat} {k : List Nat} {v : V} :
    ∀ {b : List (hmEntry V)}, b.countP (fun e => e.HashKey == h) ≤ 1 →
      (putBucket h k v b).countP (fun e => e.HashKey == h) = 1
  | [], _ => by simp [putBucket]
  | x :: es, hle => by
    by_cases hx : x.HashKey = h
    · simp only [putBucket, if_pos hx]
      rw [List.countP_cons_of_pos _ _ (by simpa using hx)] at hle ⊢
      omega
    · simp only [putBucket, if_neg hx]
      rw [List.countP_cons_of_neg _ _ (by simpa using hx)] at hle ⊢
      exact countP_putBucket_self hle

theorem countP_putBucket_ne {V : Type} {h h2 : Nat} (hne : h ≠ h2) (k : List Nat) (v : V) :
    ∀ b : List (hmEntry V), (putBucket h2 k v b).countP (fun e => e.HashKey == h)
      = b.countP (fun e => e.HashKey == h)
  | [] => by simp [putBucket, Ne.symm hne]
  | x :: es => by
    by_cases hx : x.HashKey = h2
    · simp only [putBucket, if_pos hx, List.countP_cons]
    · simp only [putBucket, if_neg hx, List.countP_cons]
      rw [countP_putBucket_ne hne k v es]

theorem countHash_Put_self {V : Type} {hash : List Nat → Nat} {m : HashMap V}
    (hW : HashMapWF hash m) (hN : HashMapNoDupH m) (k : List Nat) (v : V) :
    countHash (m.Put hash k v) (hash k) = 1 := by
  rw [countHash_loc (HashMapWF_Put hW k v) (hash k)]
  have hD : (m.Put hash k v).data.getD (hash k % DefaultTableSize) []
      = putBucket (hash k) k v (m.data.getD (hash k % DefaultTableSize) []) := by
    show (m.data.set _ _).getD _ [] = _
    exact getD_set_self _ _ _ _ (bucketIdx_lt m (hash k))
  rw [hD]
  exact countP_putBucket_self (countP_hash_le_one (hN _))

theorem countHash_Put_ne {V : Type} {hash : List Nat → Nat} (m : HashMap V)
    {h : Nat} {k : List Nat} (hne : h ≠ hash k) (v : V) :
    countHash (m.Put hash k v) h = countHash m h := by
  have heq := flatten_countP_set (fun e => e.HashKey == h) m.data
    (hash k % DefaultTableSize)
    (putBucket (hash k) k v (m.data.getD (hash k % DefaultTableSize) []))
    (bucketIdx_lt m (hash k))
  have hpb := countP_putBucket_ne hne k v (m.data.getD (hash k % DefaultTableSize) [])
  show ((m.data.set _ _).flatten).countP _ = m.data.flatten.countP _
  omega

/-- C1 counterexample: under a hash function on which the two distinct keys
[0] and [1] collide, putting 1 under [0] and then 2 under [1] overwrites the
record of [0], so Get of [0] returns the other key's value 2. The table
disambiguates in-bucket records by the stored hash only, so colliding keys
alias, refuting the claim for keys with equal hash values. -/
theorem C1_counterexample :
    (([0] : List Nat) ≠ [1]) ∧
    (hashZero [0] = hashZero [1]) ∧
    HashMap.Get hashZero
      (HashMap.Put hashZero (HashMap.Put hashZero (HashMap.empty Nat) [0] 1) [1] 2) [0]
      = some 2 := by
  decide

/-- C1 amended: two keys whose hash values differ never alias: after putting
both into the table, each has exactly one record of its own hash, Get of
each returns its own value, and a Delete of one key leaves the record of the
other untouched, in every reachable table state. -/
theorem C1_distinct_hash_no_alias {V : Type} (hash : List Nat → Nat) (m : HashMap V)
    (hW : HashMapWF hash m) (hN : HashMapNoDupH m) (k1 k2 : List Nat) (v1 v2 : V)
    (hne : hash k1 ≠ hash k2) :
    countHash ((m.Put hash k1 v1).Put hash k2 v2) (hash k1) = 1 ∧
    countHash ((m.Put hash k1 v1).Put hash k2 v2) (hash k2) = 1 ∧
    ((m.Put hash k1 v1).Put hash k2 v2).Get hash k1 = some v1 ∧
    ((m.Put hash k1 v1).Put hash k2 v2).Get hash k2 = some v2 ∧
    (((m.Put hash k1 v1).Put hash k2 v2).Delete hash k2).Get hash k1 = some v1 := by
  have hW1 := HashMapWF_Put hW k1 v1
  have hN1 := HashMapNoDupH_Put hash hN k1 v1
  refine ⟨?_, ?_, ?_, ?_, ?_⟩
  · rw [countHash_Put_ne _ hne v2]
    exact countHash_Put_self hW hN k1 v1
  · exact countHash_Put_self hW1 hN1 k2 v2
  · rw [HashMap.Get_Put_ne hne _ v2]
    exact HashMap.Get_Put_self hash _ k1 v1
  · exact HashMap.Get_Put_self hash _ k2 v2
  · rw [HashMap.Get_Delete_ne hne _]
    rw [HashMap.Get_Put_ne hne _ v2]
    exact HashMap.Get_Put_self hash _ k1 v1

/-- Instance of the amended C1 on concrete inputs: keys [0] and [1] hash to 0
and 1 under hashHead and never alias. -/
theorem C1_distinct_hash_no_alias_witness :
    countHash (((HashMap.empty Nat).Put hashHead [0] 1).Put hashHead [1] 2)
      (hashHead [0]) = 1 ∧
    countHash (((HashMap.empty Nat).Put hashHead [0] 1).Put hashHead [1] 2)
      (hashHead [1]) = 1 ∧
    (((HashMap.empty Nat).Put hashHead [0] 1).Put hashHead [1] 2).Get hashHead [0]
      = some 1 ∧
    (((HashMap.empty Nat).Put hashHead [0] 1).Put hashHead [1] 2).Get hashHead [1]
      = some 2 ∧
    ((((HashMap.empty Nat).Put hashHead [0] 1).Put hashHead [1] 2).Delete hashHead
      [1]).Get hashHead [0] = some 1 :=
  C1_distinct_hash_no_alias hashHead (HashMap.empty Nat) (HashMapWF_empty hashHead)
    HashMapNoDupH_empty [0] [1] 1 2 (by decide)

/-- C6 counterexample: with a hash on which all keys collide, a Set of key
[0] with negative TTL deletes the record of the distinct key [1], so a
negative-TTL Set does not leave every other key's entry unchanged. -/
theorem C6_counterexample :
    ((cache0.Set hashZero (some [1]) (some [9]) 0 0).Set hashZero
      (some [0]) (some [7]) (-1) 0).Get hashZero (some [1]) 0 = (none, 0) ∧
    (cache0.Set hashZero (some [1]) (some [9]) 0 0).Get hashZero (some [1]) 0
      = (some [9], 0) ∧
    (([0] : List Nat) ≠ [1]) := by
  decide

/-- C6 amended: for every non-nil key and negative ttl, Set deletes any
existing entry of the key (a later Get of the key returns (nil, 0)), stores
nothing (the table does not grow), and leaves every key with a different
hash value unchanged, in every reachable cache state. -/
theorem C6_negative_ttl (hash : List Nat → Nat) (c : ActiveCache)
    (hN : HashMapNoDupH c.entries)
    (k : List Nat) (v : Option (List Nat)) (ttl now now2 : Int) (ht : ttl < 0) :
    (c.Set hash (some k) v ttl now).Get hash (some k) now2 = (none, 0) ∧
    (∀ k2 : List Nat, hash k2 ≠ hash k →
      (c.Set hash (some k) v ttl now).Get hash (some k2) now2
        = c.Get hash (some k2) now2) ∧
    (c.Set hash (some k) v ttl now).entries.size ≤ c.entries.size := by
  have h1 := Set_entries_neg hash c k v ht now
  refine ⟨?_, ?_, ?_⟩
  · refine Get_eq_of_none hash _ k now2 ?_
    rw [h1]
    exact HashMap.Get_Delete_self hN k
  · intro k2 hk2
    have h2 : (c.Set hash (some k) v ttl now).entries.Get hash k2
        = c.entries.Get hash k2 := by
      rw [h1]
      exact HashMap.Get_Delete_ne hk2 c.entries
    simp [ActiveCache.Get, h2]
  · rw [h1]
    exact size_Delete_le hash c.entries k

/-- Instance of the amended C6 on concrete inputs: setting key [1] with
ttl -1 removes it and does not grow the table. -/
theorem C6_negative_ttl_witness :
    ((cache0.Set hashHead (some [1]) (some [2]) 5 10).Set hashHead
      (some [1]) (some [3]) (-1) 10).Get hashHead (some [1]) 10 = (none, 0) ∧
    ((cache0.Set hashHead (some [1]) (some [2]) 5 10).Set hashHead
      (some [1]) (some [3]) (-1) 10).entries.size
      ≤ (cache0.Set hashHead (some [1]) (some [2]) 5 10).entries.size := by
  have h := C6_negative_ttl hashHead (cache0.Set hashHead (some [1]) (some [2]) 5 10)
    (by
      have := HashMapNoDupH_Put hashHead HashMapNoDupH_empty [1]
        (⟨some [2], 5, 15⟩ : cacheEntry)
      simpa [cache0, ActiveCache.Set, NoExpiration, HashMap.empty] using this)
    [1] (some [3]) (-1) 10 10 (by decide)
  exact ⟨h.1, h.2.2⟩

theorem GetAll_empty {V : Type} : (HashMap.empty V).GetAll = [] := rfl

theorem CacheInv_empty : CacheInv (HashMap.empty cacheEntry) := fun e he =>
  absurd (GetAll_empty ▸ he) (List.not_mem_nil e)

/-- C8: with a nonnegative clock (UnixNano readings are nonnegative), every
Set preserves the sentinel invariant ExpiresAt = NoExpiration iff
Ttl = NoExpiration on every stored entry; an entry stored with positive ttl
carries ExpiresAt = now + ttl computed at creation; and any sampler run
preserves the invariant (Get never modifies the table in the embedding). -/
theorem C8_sentinel_invariant (hash : List Nat → Nat) (c : ActiveCache)
    (hInv : CacheInv c.entries) (now : Int) (hnow : 0 ≤ now) :
    (∀ (key value : Option (List Nat)) (ttl : Int),
      CacheInv (c.Set hash key value ttl now).entries) ∧
    (∀ (k : List Nat) (value : Option (List Nat)) (ttl : Int), 0 < ttl →
      (c.Set hash (some k) value ttl now).entries.Get hash k
        = some ⟨value, ttl, now + ttl⟩) ∧
    (∀ (oracle : Nat → Nat → List Nat) (conf : Config) (fuel depth : Nat)
        (m2 : HashMap cacheEntry),
      defaultClean hash oracle now fuel depth c.entries conf = some m2 →
      CacheInv m2) := by
  refine ⟨?_, ?_, ?_⟩
  · intro key value ttl
    match key with
    | none => exact hInv
    | some k =>
      by_cases ht : ttl < 0
      · rw [Set_entries_neg hash c k value ht now]
        intro e he
        exact hInv e (mem_GetAll_Delete he)
      · rw [Set_entries_nonneg hash c k value ht now]
        intro e he
        rcases mem_GetAll_Put he with h2 | h2
        · exact hInv e h2
        · rw [h2]
          simp only [CacheEntryInv, NoExpiration]
          by_cases hpos : ttl > 0
          · rw [if_pos hpos]
            constructor <;> intro h3 <;> omega
          · rw [if_neg hpos]
            constructor <;> intro h3 <;> omega
  · intro k value ttl hpos
    rw [Set_entries_nonneg hash c k value (by omega) now, if_pos hpos]
    exact HashMap.Get_Put_self hash c.entries k _
  · intro oracle conf fuel depth m2 h e he
    exact hInv e (defaultClean_subset hash oracle now conf fuel depth c.entries m2 h e he)

/-- Instance of C8 on concrete inputs: storing key [1] with ttl 5 at clock 10
keeps the invariant and records ExpiresAt 15. -/
theorem C8_sentinel_invariant_witness :
    CacheInv (cache0.Set hashHead (some [1]) (some [2]) 5 10).entries ∧
    (cache0.Set hashHead (some [1]) (some [2]) 5 10).entries.Get hashHead [1]
      = some ⟨some [2], 5, 15⟩ := by
  have h := C8_sentinel_invariant hashHead cache0 CacheInv_empty 10 (by decide)
  refine ⟨h.1 (some [1]) (some [2]) 5, ?_⟩
  have h2 := h.2.1 [1] (some [2]) 5 (by decide)
  simpa using h2

/-- C10: the sampler terminates on every well-formed table, every random
choice and every configuration: fuel one larger than the table size always
suffices (each cascaded re-run follows a pass whose expired share exceeded
the tolerance, hence deleted at least one record, so the table shrinks); and
on an empty enumeration the early return fires at once, before the division
by the sample size. -/
theorem C10_sampler_terminates (hash : List Nat → Nat) (oracle : Nat → Nat → List Nat)
    (now : Int) (conf : Config) (depth : Nat) (m : HashMap cacheEntry)
    (hW : HashMapWF hash m) :
    (defaultClean hash oracle now (m.size + 1) depth m conf).isSome = true ∧
    (m.GetAll = [] → defaultClean hash oracle now 1 depth m conf = some m) := by
  constructor
  · exact defaultClean_isSome hash oracle now conf (m.size + 1) depth m hW
      (Nat.lt_succ_self _)
  · intro h
    rw [show (1 : Nat) = 0 + 1 from rfl, defaultClean_succ]
    rw [h]
    simp only [List.length_nil, Nat.cast_zero]
    by_cases h0 : (min conf.KeysAmountByCycle (0 : Int)) = 0
    · rw [if_pos h0]
    · rw [if_neg h0]
      have hto : (min conf.KeysAmountByCycle (0 : Int)).toNat = 0 :=
        Int.toNat_of_nonpos (min_le_right _ _)
      have hidx : sampleIdx oracle conf depth 0 = [] := by
        unfold sampleIdx
        simp only [Nat.cast_zero, hto, List.take_zero]
      rw [hidx]
      simp [cleanSample, ExpiredKeysPercentageTolerance]

theorem m8_WF : HashMapWF hashHead m8 := by
  unfold m8
  apply HashMapWF_Put
  apply HashMapWF_Put
  apply HashMapWF_Put
  apply HashMapWF_Put
  apply HashMapWF_Put
  apply HashMapWF_Put
  apply HashMapWF_Put
  apply HashMapWF_Put
  exact HashMapWF_empty hashHead

theorem m8_NoDupH : HashMapNoDupH m8 := by
  unfold m8
  apply HashMapNoDupH_Put
  apply HashMapNoDupH_Put
  apply HashMapNoDupH_Put
  apply HashMapNoDupH_Put
  apply HashMapNoDupH_Put
  apply HashMapNoDupH_Put
  apply HashMapNoDupH_Put
  apply HashMapNoDupH_Put
  exact HashMapNoDupH_empty

/-- C4 counterexample: on the concrete eight-entry table m8 at clock 5, the
first drawn sample [0..4] is 40 percent expired (above the tolerance), the
cascade runs and returns, yet the expired entry of key [7] is still
reachable by enumeration, because the final pass never sampled it. -/
theorem C4_counterexample :
    ((cleanSample hashHead 5 m8.GetAll (sampleIdx oracleId conf5 0 m8.GetAll.length) m8).2
        * 100 / (sampleIdx oracleId conf5 0 m8.GetAll.length).length
        > ExpiredKeysPercentageTolerance) ∧
    ((defaultClean hashHead oracleId 5 9 0 m8 conf5).map
        (fun m2 => m2.GetAll.any (fun e => e.Value.IsExpired 5))) = some true := by
  decide

/-- C4 amended: when every pass samples the whole table, which the
hypothesis table size at most KeysAmountByCycle guarantees, one invocation
of the sampler (with its cascade) leaves no expired entry reachable by
enumeration while every non-expired entry remains present, for every choice
of the random samples; with a partial sample, expired entries the final pass
does not draw can survive (C4_counterexample). -/
theorem C4_sampler_full_coverage (hash : List Nat → Nat) (oracle : Nat → Nat → List Nat)
    (now : Int) (conf : Config) (m : HashMap cacheEntry) (fuel depth : Nat)
    (hW : HashMapWF hash m) (hN : HashMapNoDupH m) (hOr : ValidOracle oracle)
    (hcov : (m.size : Int) ≤ conf.KeysAmountByCycle) (hfuel : 2 ≤ fuel) :
    ∃ m2, defaultClean hash oracle now fuel depth m conf = some m2 ∧
      (∀ e ∈ m2.GetAll, e.Value.IsExpired now = false) ∧
      (∀ e ∈ m.GetAll, e.Value.IsExpired now = false → e ∈ m2.GetAll) := by
  obtain ⟨f, rfl⟩ : ∃ f, fuel = f + 1 := ⟨fuel - 1, by omega⟩
  rw [defaultClean_succ]
  have hcov2 : (m.GetAll.length : Int) ≤ conf.KeysAmountByCycle := hcov
  have hmin : min conf.KeysAmountByCycle (m.GetAll.length : Int)
      = (m.GetAll.length : Int) := min_eq_right hcov2
  by_cases h0 : (min conf.KeysAmountByCycle (m.GetAll.length : Int)) = 0
  · rw [if_pos h0]
    have hn0 : m.GetAll = [] := by
      rw [hmin] at h0
      exact List.length_eq_zero.mp (by exact_mod_cast h0)
    refine ⟨m, rfl, ?_, fun e he _ => he⟩
    intro e he
    rw [hn0] at he
    exact absurd he (List.not_mem_nil e)
  · rw [if_neg h0]
    have hidx : sampleIdx oracle conf depth m.GetAll.length
        = oracle depth m.GetAll.length := by
      unfold sampleIdx
      rw [hmin, Int.toNat_natCast]
      have hlen : (oracle depth m.GetAll.length).length = m.GetAll.length := by
        rw [(hOr depth m.GetAll.length).length_eq, List.length_range]
      exact List.take_of_length_le (le_of_eq hlen)
    have hker : ∀ i ∈ sampleIdx oracle conf depth m.GetAll.length,
        (m.GetAll.getD i dfltEntry).HashKey = hash (m.GetAll.getD i dfltEntry).Key := by
      intro i hi
      rw [hidx] at hi
      have hilt : i < m.GetAll.length :=
        List.mem_range.mp ((hOr depth m.GetAll.length).mem_iff.mp hi)
      rw [List.getD_eq_getElem _ _ hilt]
      exact (WF_mem hW (List.getElem_mem hilt)).1
    have hmem := cleanSample_mem_iff hash now m.GetAll
      (sampleIdx oracle conf depth m.GetAll.length) m hW hN hker
    have hclean : ∀ e ∈ (cleanSample hash now m.GetAll
        (sampleIdx oracle conf depth m.GetAll.length) m).1.GetAll,
        e.Value.IsExpired now = false := by
      intro e he
      rcases Bool.eq_false_or_eq_true (e.Value.IsExpired now) with hb | hb
      swap
      · exact hb
      exfalso
      rcases (hmem e).mp he with ⟨hem, hall⟩
      rcases List.mem_iff_getElem.mp hem with ⟨j, hj, hget⟩
      have hjidx : j ∈ sampleIdx oracle conf depth m.GetAll.length := by
        rw [hidx]
        exact (hOr depth m.GetAll.length).mem_iff.mpr (List.mem_range.mpr hj)
      have hgetD : m.GetAll.getD j dfltEntry = e := by
        rw [List.getD_eq_getElem _ _ hj]
        exact hget
      have hne2 := hall j hjidx (by rw [hgetD]; exact hb)
      rw [hgetD] at hne2
      exact hne2 rfl
    have hkeep : ∀ e ∈ m.GetAll, e.Value.IsExpired now = false →
        e ∈ (cleanSample hash now m.GetAll
          (sampleIdx oracle conf depth m.GetAll.length) m).1.GetAll := by
      intro e he hne2
      refine (hmem e).mpr ⟨he, ?_⟩
      intro i hi hexp heq
      rw [hidx] at hi
      have hilt : i < m.GetAll.length :=
        List.mem_range.mp ((hOr depth m.GetAll.length).mem_iff.mp hi)
      have hmemi : m.GetAll.getD i dfltEntry ∈ m.GetAll := by
        rw [List.getD_eq_getElem _ _ hilt]
        exact List.getElem_mem hilt
      have heqe := GetAll_hash_inj hW hN hmemi he heq
      rw [heqe] at hexp
      rw [hexp] at hne2
      exact Bool.noConfusion hne2
    by_cases hg : (cleanSample hash now m.GetAll
          (sampleIdx oracle conf depth m.GetAll.length) m).2 * 100
        / (sampleIdx oracle conf depth m.GetAll.length).length
        > ExpiredKeysPercentageTolerance
    · rw [if_pos hg]
      obtain ⟨f2, rfl⟩ : ∃ f2, f = f2 + 1 := ⟨f - 1, by omega⟩
      exact ⟨_, defaultClean_noExpired_fix hash oracle now conf f2 (depth + 1) _ hclean,
        hclean, hkeep⟩
    · rw [if_neg hg]
      exact ⟨_, rfl, hclean, hkeep⟩

/-- Instance of the amended C4 on concrete inputs: with sample size 20 the
whole eight-entry table m8 is drawn, and the run at clock 5 removes all
three expired entries while keeping the other five. -/
theorem C4_sampler_full_coverage_witness :
    ∃ m2, defaultClean hashHead oracleId 5 2 0 m8 DefaultConfig = some m2 ∧
      (∀ e ∈ m2.GetAll, e.Value.IsExpired 5 = false) ∧
      (∀ e ∈ m8.GetAll, e.Value.IsExpired 5 = false → e ∈ m2.GetAll) :=
  C4_sampler_full_coverage hashHead oracleId 5 DefaultConfig m8 2 0 m8_WF m8_NoDupH
    (fun _ _ => List.Perm.refl _) (by decide) (by decide)

/-- Instance of C10 on concrete inputs: the sampler returns within nine fuel
steps on the eight-entry table m8. -/
theorem C10_sampler_terminates_witness :
    (defaultClean hashHead oracleId 5 (m8.size + 1) 0 m8 conf5).isSome = true :=
  (C10_sampler_terminates hashHead oracleId 5 conf5 0 m8 m8_WF).1
